import Mathlib

/-!
Verification of the `convert_zh` tool (batch Simplified→Traditional Chinese
converter) against its natural-language specification.

The development is a shallow embedding of the code in
`src/convert_zh/{encoding.py, converter.py, file_processor.py}`:

* text is modelled as `List Char` (`Str`), filesystem paths as lists of
  path segments (`FsPath`),
* the external OpenCC converter is an opaque function `Str → Str`,
* the filesystem is an association list from paths to entries; file data
  records the decoded text, the on-disk encoding name, and a `readable`
  flag modelling the environment (an unreadable file is the way a per-file
  exception arises, as in spec Scenario 5),
* the byte-level encoding resolver of `encoding.py` is modelled separately
  over an abstract `Codec` (strict decoding is fallible, lossy GB18030
  decoding is total).
-/

namespace ConvertZh

/-- Text (Python `str`) as a list of characters. -/
abbrev Str := List Char

/-- A filesystem path as its list of segments (`pathlib.Path.parts`). -/
abbrev FsPath := List Str

/-- Python `str.lower()` (modelled characterwise). -/
def lowerStr (s : Str) : Str := s.map Char.toLower

/-- `Path.name` of a path: its last segment (`[]` for the empty path). -/
def nameOf (p : FsPath) : Str := p.getLastD []

/-- `Path.parent` of a path: all segments but the last. -/
def parentOf (p : FsPath) : FsPath := p.dropLast

/-- Split a character list at its first `'.'`:
`breakAtDot s = some (pre, post)` iff `s = pre ++ '.' :: post` with `pre`
dot-free; `none` iff `s` has no dot. -/
def breakAtDot : Str → Option (Str × Str)
  | [] => none
  | c :: rest =>
    if c = '.' then some ([], rest)
    else
      match breakAtDot rest with
      | some (pre, post) => some (c :: pre, post)
      | none => none

/-- `Path(name).stem` and `Path(name).suffix` for a plain (separator-free)
filename, as the pair `(stem, suffix)`. -/
def nameSplit (s : Str) : Str × Str :=
  match breakAtDot s.reverse with
  | some (revAfter, revBefore) =>
    if revBefore = [] ∨ revAfter = [] then (s, [])
    else (revBefore.reverse, '.' :: revAfter.reverse)
  | none => (s, [])

/-- `ChineseConverter.convert`: returns empty text unchanged, otherwise
delegates to the opaque OpenCC conversion `cc`. -/
def ccConvert (cc : Str → Str) (text : Str) : Str :=
  if text = [] then text else cc text

/-- `ChineseConverter.convert_filename`: convert only the stem, keep the
suffix (the caller always passes `file_path.name`, which has no separator). -/
def convert_filename (cc : Str → Str) (filename : Str) : Str :=
  ccConvert cc (nameSplit filename).1 ++ (nameSplit filename).2

/-! ### The encoding resolver (`encoding.py`), byte level

`read_file_with_encoding` works on the raw byte buffer of a file.  The
statistical detector (`charset_normalizer`), strict decoding, and lossy
GB18030 decoding are external collaborators, abstracted as a `Codec`;
strict decoding may fail (`Option`), lossy decoding is total. -/

/-- The fixed candidate list `CHINESE_ENCODINGS` of `encoding.py`. -/
def CHINESE_ENCODINGS : List String :=
  ["gb18030", "gbk", "gb2312", "utf-8", "utf-8-sig", "big5", "big5hkscs"]

/-- Abstract decoding collaborators used by `read_file_with_encoding`. -/
structure Codec where
  /-- Strict decoding of a byte buffer under a named encoding
  (`bytes.decode(enc)`); `none` models `UnicodeDecodeError`/`LookupError`. -/
  decode : String → List Nat → Option Str
  /-- The statistical detector `from_bytes(raw).best()`. -/
  detectBest : List Nat → Option String
  /-- `raw.decode("gb18030", errors="replace")`: lossy, never fails. -/
  lossyGb18030 : List Nat → Str

/-- The loop over `CHINESE_ENCODINGS`: first encoding that strictly
decodes `raw` wins. -/
def tryCandidates (M : Codec) (raw : List Nat) : List String → Option (Str × String)
  | [] => none
  | e :: es =>
    match M.decode e raw with
    | some t => some (t, e)
    | none => tryCandidates M raw es

/-- `read_file_with_encoding`: try the detector's best guess, then the
fixed candidate list, finally lossy GB18030 (total, by the result type). -/
def read_file_with_encoding (M : Codec) (raw : List Nat) : Str × String :=
  let fallback :=
    match tryCandidates M raw CHINESE_ENCODINGS with
    | some r => r
    | none => (M.lossyGb18030 raw, "gb18030")
  match M.detectBest raw with
  | some enc =>
    match M.decode enc raw with
    | some t => (t, enc)
    | none => fallback
  | none => fallback

/-- Concrete codec for the C4 witness: the detector guesses "gbk", strict
decoding succeeds only for "utf-8". -/
def codecW : Codec where
  decode := fun e _ => if e = "utf-8" then some ['a'] else none
  detectBest := fun _ => some "gbk"
  lossyGb18030 := fun _ => ['?']

/-! ### The filesystem model -/

/-- On-disk state of one regular file. -/
structure FileData where
  text : Str
  enc : String
  readable : Bool
deriving DecidableEq

/-- A directory entry or a regular-file entry. -/
inductive Entry where
  | file (d : FileData)
  | dir
deriving DecidableEq

/-- `Path.is_file()`. -/
def Entry.isFile : Entry → Bool
  | .file _ => true
  | .dir => false

/-- The filesystem: paths mapped to entries. -/
abbrev FS := List (FsPath × Entry)

/-- Entry at a path, if any. -/
def FS.lookup (fs : FS) (p : FsPath) : Option Entry :=
  (fs.find? fun kv => decide (kv.1 = p)).map (·.2)

/-- Remove the entry at a path. -/
def FS.erase (fs : FS) (p : FsPath) : FS :=
  fs.filter fun kv => decide (kv.1 ≠ p)

/-- Create or overwrite the entry at a path. -/
def FS.setEntry (fs : FS) (p : FsPath) (e : Entry) : FS :=
  (p, e) :: fs.erase p

/-- `Path.exists()`. -/
def FS.existsPath (fs : FS) (p : FsPath) : Bool :=
  (fs.lookup p).isSome

/-- `os.rename` on a single file (POSIX): moves the entry, silently
replacing any existing entry at the target. -/
def FS.renameFile (fs : FS) (old target : FsPath) : FS :=
  match fs.lookup old with
  | some e => (fs.erase old).setEntry target e
  | none => fs

/-- Replace the ancestor `old` of `k` by `target` (identity when `old` is
not an ancestor of `k`). -/
def replaceAncestor (old target k : FsPath) : FsPath :=
  if old <+: k then target ++ k.drop old.length else k

/-- `os.rename` on a directory: the whole subtree moves with it. -/
def FS.renameTree (fs : FS) (old target : FsPath) : FS :=
  fs.map fun kv => (replaceAncestor old target kv.1, kv.2)

/-- `p` lies strictly below `root` (what `root.rglob("*")` yields). -/
def isUnder (root p : FsPath) : Prop := root <+: p ∧ p ≠ root

instance (root p : FsPath) : Decidable (isUnder root p) := by
  unfold isUnder; infer_instance

/-! ### The processing engine (`file_processor.py`) -/

/-- Configuration state of `FileProcessor` after `__init__`. -/
structure FileProcessor where
  /-- The opaque OpenCC conversion backing `ChineseConverter`. -/
  cc : Str → Str
  /-- Lowercased extension set. -/
  extensions : List Str
  rename_files : Bool
  convert_content : Bool

/-- Python string `<`: code-point lexicographic comparison. -/
def strLt : Str → Str → Bool
  | [], [] => false
  | [], _ :: _ => true
  | _ :: _, [] => false
  | a :: as, b :: bs => if a = b then strLt as bs else decide (a < b)

/-- pathlib path comparison: `PurePath.__lt__` compares the parts tuple
(`_parts_normcase`), i.e. Python tuple `<` over the segment strings. -/
def partsLt : FsPath → FsPath → Bool
  | [], [] => false
  | [], _ :: _ => true
  | _ :: _, [] => false
  | x :: xs, y :: ys => if x = y then partsLt xs ys else strLt x y

/-- The comparator realised by `sorted(files)`: `sorted` uses only
`Path.__lt__`, and its output is pairwise free of `partsLt` inversions. -/
def pathLe (p q : FsPath) : Bool := !(partsLt q p)

/-- `FileProcessor.scan_directory`: all regular files strictly below
`root` whose lowercased suffix is in the extension set, sorted in
pathlib's path order (lexicographic on the parts tuple). -/
def FileProcessor.scan_directory (P : FileProcessor) (fs : FS) (root : FsPath) :
    List FsPath :=
  ((fs.filter fun kv =>
      decide (isUnder root kv.1) && kv.2.isFile &&
        decide (lowerStr (nameSplit (nameOf kv.1)).2 ∈ P.extensions)).map (·.1)).mergeSort
    pathLe

/-- `files.sort(key=lambda p: len(p.parts), reverse=True)`: deepest first. -/
def sortDepthDesc (l : List FsPath) : List FsPath :=
  l.mergeSort fun a b => decide (b.length ≤ a.length)

/-- The new path `process_file` computes for a file when renaming is
enabled (otherwise the file keeps its path). -/
def FileProcessor.targetPath (P : FileProcessor) (file_path : FsPath) : FsPath :=
  if P.rename_files then parentOf file_path ++ [convert_filename P.cc (nameOf file_path)]
  else file_path

/-- `FileProcessor.process_file` in apply or dry-run mode.  Dry run
returns before any mutation.  In apply mode, content conversion reads the
file (the per-file exception point: missing or unreadable file), rewrites
it in place as UTF-8, then the rename happens when enabled and the path
changed. -/
def FileProcessor.process_file (P : FileProcessor) (fs : FS) (file_path : FsPath)
    (dry_run : Bool) : Except Unit FS :=
  let new_path := P.targetPath file_path
  if dry_run then Except.ok fs
  else
    let step1 : Except Unit FS :=
      if P.convert_content then
        match fs.lookup file_path with
        | some (Entry.file d) =>
          if d.readable then
            Except.ok (fs.setEntry file_path
              (Entry.file ⟨ccConvert P.cc d.text, "utf-8", d.readable⟩))
          else Except.error ()
        | _ => Except.error ()
      else Except.ok fs
    match step1 with
    | Except.ok fs1 =>
      if P.rename_files ∧ new_path ≠ file_path then
        Except.ok (fs1.renameFile file_path new_path)
      else Except.ok fs1
    | Except.error e => Except.error e

/-- Read a file's decoded text; `none` models the read raising. -/
def readText (fs : FS) (p : FsPath) : Option Str :=
  match fs.lookup p with
  | some (Entry.file d) => if d.readable then some d.text else none
  | _ => none

/-- The changed-line count of `_log_dry_run`: `zip` the two line lists
(splitting on newline) and count the positions whose lines differ. -/
def changedLineCount (original converted : Str) : Nat :=
  ((original.splitOn '\n').zip (converted.splitOn '\n')).countP
    fun ab => decide (ab.1 ≠ ab.2)

/-- One line of the dry-run report for a file. -/
inductive DryChange where
  /-- "Content: {n} lines would change" -/
  | content (changed_lines : Nat)
  /-- "Content: Error reading file - ..." -/
  | contentError
  /-- "Rename: {src} -> {dst}" -/
  | rename (src dst : Str)
deriving DecidableEq

/-- `FileProcessor._log_dry_run`: the list of reported changes for one
file (nothing is printed exactly when this list is empty). -/
def FileProcessor.log_dry_run (P : FileProcessor) (fs : FS) (source target : FsPath) :
    List DryChange :=
  (if P.convert_content then
    match readText fs source with
    | some content =>
      if content ≠ ccConvert P.cc content then
        [DryChange.content (changedLineCount content (ccConvert P.cc content))]
      else []
    | none => [DryChange.contentError]
  else []) ++
  (if P.rename_files ∧ nameOf source ≠ nameOf target then
    [DryChange.rename (nameOf source) (nameOf target)]
  else [])

/-- Per-file outcome, as logged by the loop (a failure is logged with the
failing path). -/
inductive FileEvent where
  | ok (p : FsPath)
  | failed (p : FsPath)
deriving DecidableEq

def FileEvent.isFailed : FileEvent → Bool
  | .failed _ => true
  | .ok _ => false

def FileEvent.path : FileEvent → FsPath
  | .failed p => p
  | .ok p => p

/-- Result of a run: final filesystem, the two counters, and the per-file
event log. -/
structure RunResult where
  fs : FS
  success_count : Nat
  failure_count : Nat
  events : List FileEvent
deriving DecidableEq

/-- The `for file_path in files` loop of `process_directory`: each file is
attempted once; an exception is caught, logged and counted, and the loop
continues with the next file. -/
def FileProcessor.processLoop (P : FileProcessor) (dry_run : Bool) :
    List FsPath → FS → RunResult
  | [], fs => ⟨fs, 0, 0, []⟩
  | p :: rest, fs =>
    match P.process_file fs p dry_run with
    | Except.ok fs1 =>
      let r := P.processLoop dry_run rest fs1
      ⟨r.fs, r.success_count + 1, r.failure_count, FileEvent.ok p :: r.events⟩
    | Except.error _ =>
      let r := P.processLoop dry_run rest fs
      ⟨r.fs, r.success_count, r.failure_count + 1, FileEvent.failed p :: r.events⟩

/-- One iteration of the `_rename_directories` loop: rename the directory
only when the converted name differs and nothing exists at the target
path; otherwise leave the filesystem untouched. -/
def renameDirStep (cc : Str → Str) (fs : FS) (dir_path : FsPath) : FS :=
  if ccConvert cc (nameOf dir_path) ≠ nameOf dir_path then
    if fs.existsPath (parentOf dir_path ++ [ccConvert cc (nameOf dir_path)]) = false then
      fs.renameTree dir_path (parentOf dir_path ++ [ccConvert cc (nameOf dir_path)])
    else fs
  else fs

/-- The directories strictly below `root`, deepest first (the list
`_rename_directories` walks). -/
def dirsUnder (fs : FS) (root : FsPath) : List FsPath :=
  sortDepthDesc
    ((fs.filter fun kv => decide (isUnder root kv.1) && decide (kv.2 = Entry.dir)).map (·.1))

/-- `FileProcessor._rename_directories`. -/
def FileProcessor.rename_directories (P : FileProcessor) (fs : FS) (root : FsPath) : FS :=
  (dirsUnder fs root).foldl (renameDirStep P.cc) fs

/-- `FileProcessor.process_directory`: scan, re-sort deepest first,
process every file with per-file failure isolation, then (apply mode with
renaming only) rename directories deepest first. -/
def FileProcessor.process_directory (P : FileProcessor) (fs : FS) (root : FsPath)
    (dry_run : Bool) : RunResult :=
  let files := sortDepthDesc (P.scan_directory fs root)
  let r := P.processLoop dry_run files fs
  if P.rename_files ∧ ¬ dry_run then
    { r with fs := P.rename_directories r.fs root }
  else r

/-- The order in which one run touches paths: first every scanned file,
deepest first, then (apply mode) every directory, deepest first; the
Boolean marks a directory. `fs` is the tree at scan time and `fsAfter`
the tree `_rename_directories` walks after all files are processed. -/
def runOrder (P : FileProcessor) (fs fsAfter : FS) (root : FsPath) :
    List (Bool × FsPath) :=
  (sortDepthDesc (P.scan_directory fs root)).map (fun p => (false, p)) ++
    (dirsUnder fsAfter root).map (fun p => (true, p))

def ccW5 : Str → Str := fun s => s

def dW5 : FileData := ⟨['h', 'i'], "gbk", true⟩

def fsW5 : FS := [([['a', '.', 't', 'x', 't']], Entry.file dW5)]

def PW5 : FileProcessor := ⟨ccW5, [], false, true⟩

def ccW6 : Str → Str := fun _ => ['b']

def fsW6 : FS := [([['a']], Entry.dir), ([['b']], Entry.dir)]

def ccW10 : Str → Str := fun _ => ['b']

def dW10 : FileData := ⟨['x'], "utf-8", true⟩

def dqW10 : FileData := ⟨['y'], "utf-8", true⟩

def fsW10 : FS := [([['a', '.', 't']], Entry.file dW10), ([['b', '.', 't']], Entry.file dqW10)]

def PW10 : FileProcessor := ⟨ccW10, [], true, false⟩

def ccW9 : Str → Str := fun s => s.map fun c => if c = 'y' then 'Y' else c

def fsW9 : FS := [([['f']], Entry.file ⟨['x', '\n', 'y', '\n', 'z'], "utf-8", true⟩)]

def PW9 : FileProcessor := ⟨ccW9, [], false, true⟩

def ccW2 : Str → Str := fun s => s

def fsW2 : FS := [([['d']], Entry.dir), ([['d'], ['f', '.', 't', 'x', 't']], Entry.file ⟨['x'], "utf-8", true⟩)]

def PW2 : FileProcessor := ⟨ccW2, [('.' :: ['t', 'x', 't'])], true, true⟩

/-! ### Theorems -/

theorem breakAtDot_eq_some {s pre post : Str}
    (h : breakAtDot s = some (pre, post)) : s = pre ++ '.' :: post := by
  induction s generalizing pre post with
  | nil => simp [breakAtDot] at h
  | cons c rest ih =>
    by_cases hc : c = '.'
    · subst hc
      simp [breakAtDot] at h
      simp [← h.1, ← h.2]
    · rw [breakAtDot, if_neg hc] at h
      cases hrec : breakAtDot rest with
      | none => rw [hrec] at h; exact absurd h (by simp)
      | some pq =>
        rw [hrec] at h
        obtain ⟨p, q⟩ := pq
        simp only [Option.some.injEq, Prod.mk.injEq] at h
        obtain ⟨h1, h2⟩ := h
        subst h2
        rw [← h1]
        simpa using ih hrec

/-- The stem and the suffix concatenate back to the original filename. -/
theorem nameSplit_append (s : Str) :
    (nameSplit s).1 ++ (nameSplit s).2 = s := by
  unfold nameSplit
  split
  case _ revAfter revBefore h =>
    split
    case _ => simp
    case _ hdeg =>
      have hs : s.reverse = revAfter ++ '.' :: revBefore := breakAtDot_eq_some h
      have hrepr : s = revBefore.reverse ++ '.' :: revAfter.reverse := by
        have := congrArg List.reverse hs
        simpa [List.reverse_append] using this
      simpa using hrepr.symm
  case _ => simp

theorem tryCandidates_eq_of_first (M : Codec) (raw : List Nat) :
    ∀ (L : List String) (i : Nat) (enc : String) (t : Str),
      L[i]? = some enc →
      (∀ e ∈ L.take i, M.decode e raw = none) →
      M.decode enc raw = some t →
      tryCandidates M raw L = some (t, enc)
  | [], i, enc, t, hi, _, _ => by simp at hi
  | e :: es, 0, enc, t, hi, _, hok => by
    simp only [List.getElem?_cons_zero, Option.some.injEq] at hi
    subst hi
    simp [tryCandidates, hok]
  | e :: es, i + 1, enc, t, hi, hpre, hok => by
    simp only [List.getElem?_cons_succ] at hi
    have he : M.decode e raw = none := hpre e (by simp)
    have hrest : ∀ x ∈ es.take i, M.decode x raw = none := by
      intro x hx
      exact hpre x (by simp [List.take_succ_cons]; exact Or.inr hx)
    rw [tryCandidates, he]
    exact tryCandidates_eq_of_first M raw es i enc t hi hrest hok

theorem tryCandidates_eq_none (M : Codec) (raw : List Nat) :
    ∀ (L : List String), (∀ e ∈ L, M.decode e raw = none) →
      tryCandidates M raw L = none
  | [], _ => rfl
  | e :: es, h => by
    have he : M.decode e raw = none := h e (by simp)
    rw [tryCandidates, he]
    exact tryCandidates_eq_none M raw es (fun x hx => h x (by simp [hx]))

/-- C4: if the statistical detector's best guess fails to decode (or the
detector found nothing), the fixed candidate list is tried strictly in
order and the first success is returned; if every candidate fails, the
bytes are decoded as lossy GB18030, which is total, so decoding never
escalates to a per-file error. -/
theorem read_file_encoding_fallback (M : Codec) (raw : List Nat)
    (hdet : ∀ e, M.detectBest raw = some e → M.decode e raw = none) :
    (∀ (i : Nat) (enc : String) (t : Str),
        CHINESE_ENCODINGS[i]? = some enc →
        (∀ e ∈ CHINESE_ENCODINGS.take i, M.decode e raw = none) →
        M.decode enc raw = some t →
        read_file_with_encoding M raw = (t, enc)) ∧
    ((∀ e ∈ CHINESE_ENCODINGS, M.decode e raw = none) →
        read_file_with_encoding M raw = (M.lossyGb18030 raw, "gb18030")) := by
  constructor
  · intro i enc t hi hpre hok
    unfold read_file_with_encoding
    rw [tryCandidates_eq_of_first M raw CHINESE_ENCODINGS i enc t hi hpre hok]
    cases hd : M.detectBest raw with
    | none => simp
    | some e => simp [hdet e hd]
  · intro hall
    unfold read_file_with_encoding
    rw [tryCandidates_eq_none M raw CHINESE_ENCODINGS hall]
    cases hd : M.detectBest raw with
    | none => simp
    | some e => simp [hdet e hd]

theorem codecW_det : ∀ e, codecW.detectBest [1] = some e → codecW.decode e [1] = none := by
  intro e h
  have he : e = "gbk" := by
    simpa [codecW] using h.symm
  subst he
  decide

/-- Witness for C4: with the detector's guess failing, decoding lands on
"utf-8", the first candidate (index 3) that succeeds. -/
theorem read_file_encoding_fallback_witness :
    read_file_with_encoding codecW [1] = (['a'], "utf-8") :=
  (read_file_encoding_fallback codecW [1] codecW_det).1 3 "utf-8" ['a']
    (by decide) (by decide) (by decide)

/-- C8: the candidate new filename converts only the stem through the Text
Converter and keeps the extension character-for-character: the filename
splits into stem and extension whose concatenation is the filename itself,
and `convert_filename` is the converted stem followed by that extension. -/
theorem convert_filename_stem_only (cc : Str → Str) (filename : Str) :
    (nameSplit filename).1 ++ (nameSplit filename).2 = filename ∧
    convert_filename cc filename =
      ccConvert cc (nameSplit filename).1 ++ (nameSplit filename).2 :=
  ⟨nameSplit_append filename, rfl⟩

theorem processLoop_spec (P : FileProcessor) (dry_run : Bool) :
    ∀ (files : List FsPath) (fs : FS),
      (P.processLoop dry_run files fs).success_count +
          (P.processLoop dry_run files fs).failure_count = files.length ∧
      (P.processLoop dry_run files fs).events.map FileEvent.path = files ∧
      (P.processLoop dry_run files fs).failure_count =
        (P.processLoop dry_run files fs).events.countP FileEvent.isFailed
  | [], fs => by simp [FileProcessor.processLoop]
  | p :: rest, fs => by
    cases h : P.process_file fs p dry_run with
    | ok fs1 =>
      have ih := processLoop_spec P dry_run rest fs1
      simp only [FileProcessor.processLoop, h, List.length_cons, List.map_cons,
        List.countP_cons, FileEvent.path, FileEvent.isFailed]
      refine ⟨by omega, by simp [ih.2.1], by simp [ih.2.2]⟩
    | error e =>
      have ih := processLoop_spec P dry_run rest fs
      simp only [FileProcessor.processLoop, h, List.length_cons, List.map_cons,
        List.countP_cons, FileEvent.path, FileEvent.isFailed]
      refine ⟨by omega, by simp [ih.2.1], by simp [ih.2.2]⟩

/-- C1: in either mode, a per-file exception is caught, logged with the
failing path, and counted; the loop continues with the next file, so every
scanned file produces exactly one logged event in processing order, the
failure counter equals the number of failure events, and at the end
successCount + failureCount equals the number of scanned files (hence
successCount = total − failures). -/
theorem process_directory_counts (P : FileProcessor) (fs : FS) (root : FsPath)
    (dry_run : Bool) :
    (P.process_directory fs root dry_run).success_count +
        (P.process_directory fs root dry_run).failure_count =
      (P.scan_directory fs root).length ∧
    (P.process_directory fs root dry_run).success_count =
      (P.scan_directory fs root).length -
        (P.process_directory fs root dry_run).failure_count ∧
    (P.process_directory fs root dry_run).events.map FileEvent.path =
      sortDepthDesc (P.scan_directory fs root) ∧
    (P.process_directory fs root dry_run).failure_count =
      (P.process_directory fs root dry_run).events.countP FileEvent.isFailed := by
  have hlen : (sortDepthDesc (P.scan_directory fs root)).length =
      (P.scan_directory fs root).length :=
    (List.mergeSort_perm _ _).length_eq
  have hspec := processLoop_spec P dry_run (sortDepthDesc (P.scan_directory fs root)) fs
  have heta :
      (P.process_directory fs root dry_run).success_count =
          (P.processLoop dry_run (sortDepthDesc (P.scan_directory fs root)) fs).success_count ∧
        (P.process_directory fs root dry_run).failure_count =
          (P.processLoop dry_run (sortDepthDesc (P.scan_directory fs root)) fs).failure_count ∧
        (P.process_directory fs root dry_run).events =
          (P.processLoop dry_run (sortDepthDesc (P.scan_directory fs root)) fs).events := by
    unfold FileProcessor.process_directory
    split <;> exact ⟨rfl, rfl, rfl⟩
  rw [heta.1, heta.2.1, heta.2.2]
  have h1 := hspec.1
  rw [hlen] at h1
  exact ⟨h1, by omega, hspec.2.1, hspec.2.2⟩

theorem process_file_dry (P : FileProcessor) (fs : FS) (p : FsPath) :
    P.process_file fs p true = Except.ok fs := rfl

theorem processLoop_dry (P : FileProcessor) :
    ∀ (files : List FsPath) (fs : FS), (P.processLoop true files fs).fs = fs
  | [], fs => rfl
  | p :: rest, fs => by
    simp only [FileProcessor.processLoop, process_file_dry]
    exact processLoop_dry P rest fs

/-- C3: a dry run performs no filesystem mutation at all — the final
filesystem state of `process_directory` with `dry_run = True` is the
initial one, for every tree and configuration. -/
theorem dry_run_no_mutation (P : FileProcessor) (fs : FS) (root : FsPath) :
    (P.process_directory fs root true).fs = fs := by
  unfold FileProcessor.process_directory
  simp [processLoop_dry]

theorem pairwiseOfForall {α : Type} {R : α → α → Prop} (h : ∀ a b, R a b) :
    ∀ l : List α, l.Pairwise R
  | [] => .nil
  | x :: xs => .cons (fun y _ => h x y) (pairwiseOfForall h xs)

theorem sortDepthDesc_pairwise (l : List FsPath) :
    (sortDepthDesc l).Pairwise fun a b => b.length ≤ a.length := by
  have h := @List.sorted_mergeSort FsPath
    (fun a b : FsPath => decide (b.length ≤ a.length))
    (fun a b c h1 h2 => by
      simp only [decide_eq_true_iff] at h1 h2 ⊢
      omega)
    (fun a b => by
      simp only [Bool.or_eq_true, decide_eq_true_iff]
      omega)
    l
  exact h.imp fun hab => by simpa using hab

/-- C2: deeper paths are always handled strictly before shallower
ancestors: in the run order (files deepest-first, then directories
deepest-first) no directory is touched before a strict descendant of it
(so for any ancestor directory A and descendant file/directory B, B comes
strictly before A). -/
theorem run_depth_order (P : FileProcessor) (fs fsAfter : FS) (root : FsPath) :
    (runOrder P fs fsAfter root).Pairwise
      fun a b => a.1 = true → ¬(a.2 <+: b.2 ∧ a.2 ≠ b.2) := by
  unfold runOrder
  rw [List.pairwise_append]
  refine ⟨?_, ?_, ?_⟩
  · rw [List.pairwise_map]
    exact pairwiseOfForall (fun a b h => by simp at h) _
  · rw [List.pairwise_map]
    have h : (dirsUnder fsAfter root).Pairwise fun a b => b.length ≤ a.length :=
      sortDepthDesc_pairwise _
    refine h.imp fun {a b} hlen => ?_
    intro _ hanc
    exact hanc.2 (hanc.1.eq_of_length (le_antisymm hanc.1.length_le hlen))
  · intro a ha b hb
    obtain ⟨p, hp, rfl⟩ := List.mem_map.mp ha
    intro h
    simp at h

theorem FS.lookup_setEntry_self (fs : FS) (p : FsPath) (e : Entry) :
    (fs.setEntry p e).lookup p = some e := by
  simp [FS.setEntry, FS.lookup]

theorem FS.lookup_erase_self (fs : FS) (p : FsPath) :
    (fs.erase p).lookup p = none := by
  unfold FS.erase FS.lookup
  rw [Option.map_eq_none', List.find?_eq_none]
  intro kv hkv
  have h := (List.mem_filter.mp hkv).2
  simpa using h

theorem FS.lookup_setEntry_ne (fs : FS) (p q : FsPath) (e : Entry) (h : q ≠ p) :
    (fs.setEntry p e).lookup q = (fs.erase p).lookup q := by
  unfold FS.setEntry FS.lookup
  rw [List.find?_cons_of_neg]
  simpa using fun hc => h hc.symm

theorem FS.lookup_erase_ne (fs : FS) (p q : FsPath) (h : q ≠ p) :
    (fs.erase p).lookup q = fs.lookup q := by
  induction fs with
  | nil => rfl
  | cons kv rest ih =>
    unfold FS.erase FS.lookup at ih ⊢
    by_cases hkp : kv.1 = p
    · have hkq : ¬ kv.1 = q := by rw [hkp]; exact fun hc => h hc.symm
      rw [List.filter_cons_of_neg (by simpa using hkp),
        List.find?_cons_of_neg _ (by simpa using hkq)]
      exact ih
    · rw [List.filter_cons_of_pos (by simpa using hkp)]
      by_cases hkq : kv.1 = q
      · rw [List.find?_cons_of_pos _ (by simpa using hkq),
          List.find?_cons_of_pos _ (by simpa using hkq)]
      · rw [List.find?_cons_of_neg _ (by simpa using hkq),
          List.find?_cons_of_neg _ (by simpa using hkq)]
        exact ih

/-- C5: in apply mode with content conversion enabled, processing a
readable file rewrites its content on disk encoded as UTF-8 — the entry at
the file's final path holds the converted text with encoding "utf-8" —
regardless of the original on-disk encoding `d.enc`, and even when the
converted content equals the original (no hypothesis relates `d.text` and
its conversion). -/
theorem apply_rewrites_utf8 (P : FileProcessor) (fs : FS) (p : FsPath) (d : FileData)
    (hcc : P.convert_content = true)
    (hlook : fs.lookup p = some (Entry.file d))
    (hread : d.readable = true) :
    ∃ fs1, P.process_file fs p false = Except.ok fs1 ∧
      fs1.lookup (P.targetPath p) =
        some (Entry.file ⟨ccConvert P.cc d.text, "utf-8", d.readable⟩) := by
  by_cases hrn : P.rename_files = true ∧ P.targetPath p ≠ p
  · refine ⟨(fs.setEntry p
        (Entry.file ⟨ccConvert P.cc d.text, "utf-8", d.readable⟩)).renameFile p
          (P.targetPath p), ?_, ?_⟩
    · simp [FileProcessor.process_file, hcc, hlook, hread, hrn]
    · rw [FS.renameFile, FS.lookup_setEntry_self]
      exact FS.lookup_setEntry_self _ _ _
  · refine ⟨fs.setEntry p (Entry.file ⟨ccConvert P.cc d.text, "utf-8", d.readable⟩), ?_, ?_⟩
    · simp [FileProcessor.process_file, hcc, hlook, hread, hrn]
    · have htp : P.targetPath p = p := by
        by_cases hb : P.rename_files = true
        · rcases not_and_or.mp hrn with h' | h'
          · exact absurd hb h'
          · exact not_not.mp h'
        · simp [FileProcessor.targetPath, hb]
      rw [htp]
      exact FS.lookup_setEntry_self _ _ _

/-- Witness for C5 at a concrete single-file tree whose conversion leaves
the content unchanged and whose on-disk encoding is GBK. -/
theorem apply_rewrites_utf8_witness :
    ∃ fs1, PW5.process_file fsW5 [['a', '.', 't', 'x', 't']] false = Except.ok fs1 ∧
      fs1.lookup (PW5.targetPath [['a', '.', 't', 'x', 't']]) =
        some (Entry.file ⟨ccConvert PW5.cc dW5.text, "utf-8", dW5.readable⟩) :=
  apply_rewrites_utf8 PW5 fsW5 [['a', '.', 't', 'x', 't']] dW5 rfl (by decide) rfl

/-- C6: a directory is renamed only when its converted name differs and no
entry exists at the target path; when an entry exists at the target path
the rename is silently skipped and the filesystem — in particular both the
directory and the existing sibling — is left untouched. -/
theorem dir_rename_collision_safe (cc : Str → Str) (fs : FS) (dir_path : FsPath) :
    ((ccConvert cc (nameOf dir_path) ≠ nameOf dir_path ∧
        fs.existsPath (parentOf dir_path ++ [ccConvert cc (nameOf dir_path)]) = true) →
      renameDirStep cc fs dir_path = fs) ∧
    (renameDirStep cc fs dir_path ≠ fs →
      ccConvert cc (nameOf dir_path) ≠ nameOf dir_path ∧
        fs.existsPath (parentOf dir_path ++ [ccConvert cc (nameOf dir_path)]) = false) := by
  constructor
  · rintro ⟨hne, hex⟩
    unfold renameDirStep
    rw [if_pos hne, if_neg (by simp [hex])]
  · intro hchg
    unfold renameDirStep at hchg
    by_cases hne : ccConvert cc (nameOf dir_path) ≠ nameOf dir_path
    · rw [if_pos hne] at hchg
      by_cases hex : fs.existsPath (parentOf dir_path ++ [ccConvert cc (nameOf dir_path)]) = false
      · exact ⟨hne, hex⟩
      · rw [if_neg hex] at hchg
        exact absurd rfl hchg
    · rw [if_neg hne] at hchg
      exact absurd rfl hchg

/-- Witness for C6: converting directory "a" collides with the existing
sibling "b", so the step leaves the filesystem unchanged. -/
theorem dir_rename_collision_safe_witness :
    renameDirStep ccW6 fsW6 [['a']] = fsW6 :=
  (dir_rename_collision_safe ccW6 fsW6 [['a']]).1 ⟨by decide, by decide⟩

/-- C10: in apply mode with renaming enabled, `process_file` renames
whenever the converted path differs — there is no existence check on the
target, unlike directory renames — so with a file already at the target
path the rename still happens, the processed file ends up at the target,
and the entry previously there is gone (silently replaced). -/
theorem file_rename_overwrite (P : FileProcessor) (fs : FS) (p : FsPath) (d dq : FileData)
    (hrn : P.rename_files = true)
    (hcc : P.convert_content = false)
    (hne : P.targetPath p ≠ p)
    (hp : fs.lookup p = some (Entry.file d))
    (hq : fs.lookup (P.targetPath p) = some (Entry.file dq)) :
    P.process_file fs p false = Except.ok (fs.renameFile p (P.targetPath p)) ∧
    (fs.renameFile p (P.targetPath p)).lookup (P.targetPath p) = some (Entry.file d) ∧
    (fs.renameFile p (P.targetPath p)).lookup p = none := by
  refine ⟨?_, ?_, ?_⟩
  · simp [FileProcessor.process_file, hcc, hrn, hne]
  · rw [FS.renameFile, hp]
    exact FS.lookup_setEntry_self _ _ _
  · rw [FS.renameFile, hp]
    show ((fs.erase p).setEntry (P.targetPath p) (Entry.file d)).lookup p = none
    rw [FS.lookup_setEntry_ne _ _ _ _ hne.symm,
      FS.lookup_erase_ne _ _ _ hne.symm, FS.lookup_erase_self]

/-- Witness for C10: renaming "a.t" to "b.t" silently replaces the
existing sibling file "b.t". -/
theorem file_rename_overwrite_witness :
    PW10.process_file fsW10 [['a', '.', 't']] false =
      Except.ok (fsW10.renameFile [['a', '.', 't']] (PW10.targetPath [['a', '.', 't']])) ∧
    (fsW10.renameFile [['a', '.', 't']] (PW10.targetPath [['a', '.', 't']])).lookup
        (PW10.targetPath [['a', '.', 't']]) = some (Entry.file dW10) ∧
    (fsW10.renameFile [['a', '.', 't']] (PW10.targetPath [['a', '.', 't']])).lookup
        [['a', '.', 't']] = none :=
  file_rename_overwrite PW10 fsW10 [['a', '.', 't']] dW10 dqW10 rfl rfl (by decide)
    (by decide) (by decide)

theorem countP_zip_ne {α : Type} [DecidableEq α] :
    ∀ a b : List α,
      (a.zip b).countP (fun ab => decide (ab.1 ≠ ab.2)) =
        (List.range (min a.length b.length)).countP fun i => decide (a[i]? ≠ b[i]?)
  | [], b => by simp
  | x :: xs, [] => by simp
  | x :: xs, y :: ys => by
    rw [List.zip_cons_cons, List.countP_cons, List.length_cons, List.length_cons,
      Nat.succ_min_succ, List.range_succ_eq_map, List.countP_cons, List.countP_map]
    have hcongr : ((fun i => decide ((x :: xs)[i]? ≠ (y :: ys)[i]?)) ∘ Nat.succ)
        = fun i => decide (xs[i]? ≠ ys[i]?) := by
      funext i
      simp
    rw [hcongr, countP_zip_ne xs ys]
    simp

/-- C9: in dry-run mode with content conversion enabled, when the
converted content differs from the original the report for the file is a
content line whose count is the number of positions `i` at which original
line `i` differs from converted line `i` (index-aligned comparison of the
two newline-split line lists, truncated to the shorter one), followed by
the rename line if applicable; a file with no detected changes reports
nothing. -/
theorem dry_run_line_report (P : FileProcessor) (fs : FS) (source target : FsPath)
    (content : Str)
    (hcc : P.convert_content = true)
    (hread : readText fs source = some content) :
    (content ≠ ccConvert P.cc content →
      P.log_dry_run fs source target =
        DryChange.content
            ((List.range (min (content.splitOn '\n').length
                ((ccConvert P.cc content).splitOn '\n').length)).countP fun i =>
              decide ((content.splitOn '\n')[i]? ≠ ((ccConvert P.cc content).splitOn '\n')[i]?))
          :: (if P.rename_files ∧ nameOf source ≠ nameOf target then
              [DryChange.rename (nameOf source) (nameOf target)]
            else [])) ∧
    (content = ccConvert P.cc content →
      ¬(P.rename_files = true ∧ nameOf source ≠ nameOf target) →
      P.log_dry_run fs source target = []) := by
  constructor
  · intro hne
    unfold FileProcessor.log_dry_run
    rw [hread]
    simp only [hcc, if_pos hne, if_true]
    rw [changedLineCount, countP_zip_ne, List.singleton_append]
  · intro heq hnr
    unfold FileProcessor.log_dry_run
    rw [hread]
    simp only [hcc, if_true,
      if_neg (show ¬ content ≠ ccConvert P.cc content from fun hc => hc heq),
      if_neg hnr, List.append_nil]

/-- Witness for C9, spec Scenario 3: a three-line file whose conversion
changes only line 2 reports "Content: 1 lines would change" and nothing
else. -/
theorem dry_run_line_report_witness :
    PW9.log_dry_run fsW9 [['f']] [['f']] = [DryChange.content 1] := by
  have h := (dry_run_line_report PW9 fsW9 [['f']] [['f']]
    ['x', '\n', 'y', '\n', 'z'] rfl (by decide)).1 (by decide)
  rw [h]
  decide

/-- Witness for C2 at a concrete nested tree (a file inside a directory). -/
theorem run_depth_order_witness :
    (runOrder PW2 fsW2 fsW2 []).Pairwise
      (fun a b => a.1 = true → ¬(a.2 <+: b.2 ∧ a.2 ≠ b.2)) :=
  run_depth_order PW2 fsW2 fsW2 []

end ConvertZh
